import Mathlib

/-!
Shallow embedding of the polyphonic voice allocator in
`src/gen_dsp/templates/shared/voice_alloc.h` (struct `VoiceAllocator` and the
`voice_alloc_*` functions), together with the per-build MIDI mapping that the
C sources fix with the preprocessor symbols `MIDI_GATE_IDX`, `MIDI_FREQ_IDX`,
`MIDI_FREQ_UNIT_HZ` and `MIDI_VEL_IDX`.

The engine behind a slot (`GenState*`) is generated gen~ code external to this
repository; the `wrapper_*` functions delegate to it (`setparameter`,
`getparameter`, `reset`, `perform`).  It is therefore modelled abstractly as a
parameter store (`params`), a counter of reset calls received (`resets`), and a
fixed per-block output function `out : channel → frame → ℝ` standing for the
samples `wrapper_perform` writes for this engine on the block under
consideration.  A null `GenState*` (an inert slot) is `Option.none`.

Machine floats are idealised as real numbers; the `uint32_t` allocation
counter is idealised as ℕ (the spec treats wraparound as out of scope).
-/

namespace GenDsp

/-- Abstract model of the external gen~ engine behind a live `GenState*`. -/
structure Engine where
  params : List ℝ
  resets : ℕ
  out : ℕ → ℕ → ℝ

/-- Model of `wrapper_set_param`: store `v` at parameter index `idx`. -/
def Engine.setParam (e : Engine) (idx : ℕ) (v : ℝ) : Engine :=
  { e with params := e.params.set idx v }

/-- Model of `wrapper_get_param`: read parameter index `idx`. -/
def Engine.getParam (e : Engine) (idx : ℕ) : ℝ :=
  e.params.getD idx 0

/-- Model of `wrapper_reset`: the engine receives one reset call (recorded as an
event; the engine's DSP internals are outside this repository). -/
def Engine.resetCall (e : Engine) : Engine :=
  { e with resets := e.resets + 1 }

/-- One voice slot: `states[v]` (`none` = inert, creation failed),
`note[v]` (−1 = free) and `age[v]` of the C struct. -/
structure Slot where
  engine : Option Engine
  note : ℤ
  age : ℕ

/-- The `VoiceAllocator` struct: `NUM_VOICES` slots (as a list scanned left to
right, index order), the monotonic `counter`, and the buffer dimensions. -/
structure VoiceAllocator where
  slots : List Slot
  counter : ℕ
  numOutChannels : ℕ
  maxFrames : ℕ

/-- The per-build MIDI parameter mapping fixed by the preprocessor:
`MIDI_GATE_IDX`, `MIDI_FREQ_IDX`, `MIDI_VEL_IDX` (each optionally defined)
and the flag `MIDI_FREQ_UNIT_HZ`. -/
structure MidiCfg where
  gateIdx : Option ℕ
  freqIdx : Option ℕ
  velIdx : Option ℕ
  freqUnitHz : Bool

/-- The frequency written for a MIDI note when `MIDI_FREQ_UNIT_HZ` is set:
`440.0f * powf(2.0f, (note - 69) / 12.0f)` (voice_alloc.h line 118). -/
noncomputable def mtof (note : ℤ) : ℝ :=
  440 * (2 : ℝ) ^ ((((note : ℝ)) - 69) / 12)

/-- The free-voice scan of `voice_alloc_note_on` (lines 81–86): first index
with `note[v] < 0`, scanning in index order. -/
def findFreeIdx : List Slot → Option ℕ
  | [] => none
  | s :: rest => if s.note < 0 then some 0 else (findFreeIdx rest).map (· + 1)

/-- The steal scan of `voice_alloc_note_on` (lines 90–97): running best index
and best age, updated on a first-strictly-less comparison, `v` the index of
the head of the remaining list. -/
def stealScanP (best bestAge v : ℕ) : List ℕ → ℕ × ℕ
  | [] => (best, bestAge)
  | a :: rest =>
    if a < bestAge then stealScanP v a (v + 1) rest
    else stealScanP best bestAge (v + 1) rest

/-- The index stolen when no slot is free: `oldest_age = age[0]; voice = 0;`
then scan slots 1.. (lines 89–97). -/
def stealIdx (slots : List Slot) : ℕ :=
  match slots with
  | [] => 0
  | s0 :: rest => (stealScanP 0 s0.age 1 (rest.map Slot.age)).1

/-- Apply `f` to slot `v`'s engine if slot `v` exists and is live
(`if (va->states[v]) wrapper_set_param(...)` pattern). -/
def updateEngineAt (slots : List Slot) (v : ℕ) (f : Engine → Engine) : List Slot :=
  match slots.get? v with
  | some ⟨some e, note, age⟩ => slots.set v ⟨some (f e), note, age⟩
  | _ => slots

/-- Gate-off sent to the stolen voice before reuse (lines 99–103), guarded by
`#ifdef MIDI_GATE_IDX` and liveness of the stolen slot. -/
def stolenGateOff (cfg : MidiCfg) (slots : List Slot) (v : ℕ) : List Slot :=
  match cfg.gateIdx with
  | none => slots
  | some g => updateEngineAt slots v (fun e => e.setParam g 0)

/-- Bind slot `v`: `va->note[voice] = note; va->age[voice] = va->counter`
(lines 106–107). -/
def bindSlot (slots : List Slot) (v : ℕ) (note : ℤ) (age : ℕ) : List Slot :=
  match slots.get? v with
  | none => slots
  | some s => slots.set v { s with note := note, age := age }

/-- The note-on control-value writes (lines 112–125), reached only when the
selected slot's engine is live (`if (!state) return voice;`): gate 1, then
frequency (Hz-converted or the raw note number, per `MIDI_FREQ_UNIT_HZ`),
then velocity, each guarded by its `#ifdef`. -/
noncomputable def noteOnWrites (cfg : MidiCfg) (note : ℤ) (velocity : ℝ)
    (e : Engine) : Engine :=
  let e1 := match cfg.gateIdx with
    | some g => e.setParam g 1
    | none => e
  let e2 := match cfg.freqIdx with
    | some fi => e1.setParam fi (if cfg.freqUnitHz then mtof note else (note : ℝ))
    | none => e1
  match cfg.velIdx with
  | some vi => e2.setParam vi velocity
  | none => e2

/-- Embedding of `voice_alloc_note_on` (lines 78–128): free scan, else steal-oldest with
gate-off to the stolen voice; bind; control-value writes if the slot is live.
Returns the updated allocator and the selected voice index. -/
noncomputable def voice_alloc_note_on (cfg : MidiCfg) (va : VoiceAllocator)
    (note : ℤ) (velocity : ℝ) : VoiceAllocator × ℕ :=
  match findFreeIdx va.slots with
  | some v =>
    let slots2 := bindSlot va.slots v note va.counter
    let slots3 := updateEngineAt slots2 v (noteOnWrites cfg note velocity)
    ({ va with slots := slots3, counter := va.counter + 1 }, v)
  | none =>
    let v := stealIdx va.slots
    let slots1 := stolenGateOff cfg va.slots v
    let slots2 := bindSlot slots1 v note va.counter
    let slots3 := updateEngineAt slots2 v (noteOnWrites cfg note velocity)
    ({ va with slots := slots3, counter := va.counter + 1 }, v)

/-- Releasing one slot in `voice_alloc_note_off` (lines 134–139): gate-off
written if a gate index exists and the slot is live, then `note[v] = -1`. -/
def releaseSlot (cfg : MidiCfg) (s : Slot) : Slot :=
  match cfg.gateIdx, s.engine with
  | some g, some e => { s with engine := some (e.setParam g 0), note := -1 }
  | _, _ => { s with note := -1 }

/-- The scan of `voice_alloc_note_off` (lines 132–142): release the first
slot in index order with `note[v] == note` and return; later slots
untouched; no match is a no-op. -/
def noteOffGo (cfg : MidiCfg) (note : ℤ) : List Slot → List Slot
  | [] => []
  | s :: rest =>
    if s.note = note then releaseSlot cfg s :: rest
    else s :: noteOffGo cfg note rest

/-- Embedding of `voice_alloc_note_off` (lines 131–143). -/
def voice_alloc_note_off (cfg : MidiCfg) (va : VoiceAllocator) (note : ℤ) :
    VoiceAllocator :=
  { va with slots := noteOffGo cfg note va.slots }

/-- Embedding of `voice_alloc_set_global_param` (lines 146–152): write to every live
slot's engine, regardless of binding state. -/
def voice_alloc_set_global_param (va : VoiceAllocator) (idx : ℕ) (v : ℝ) :
    VoiceAllocator :=
  { va with slots := va.slots.map (fun s =>
      { s with engine := s.engine.map (fun e => e.setParam idx v) }) }

/-- Embedding of `voice_alloc_get_param` (lines 155–160): read from slot 0's engine if
live (`if (va->states[0])`), else `0.0f`. -/
def voice_alloc_get_param (va : VoiceAllocator) (idx : ℕ) : ℝ :=
  match va.slots with
  | ⟨some e, _, _⟩ :: _ => e.getParam idx
  | _ => 0

/-- One slot's contribution to the mixed output: its engine's samples if
live, silence if inert. -/
def slotOut (s : Slot) (ch f : ℕ) : ℝ :=
  match s.engine with
  | some e => e.out ch f
  | none => 0

/-- The summation loop of `voice_alloc_perform` over slots 1.. (lines
179–197): inert slots are skipped (`continue`), live slots' samples are
accumulated into the running buffer value `acc` (`dst[s] += src[s]`). -/
def sumTail (ch f : ℕ) : List Slot → ℝ → ℝ
  | [], acc => acc
  | s :: rest, acc =>
    match s.engine with
    | none => sumTail ch f rest acc
    | some e => sumTail ch f rest (acc + e.out ch f)

/-- The value a written sample holds after the perform pipeline: slot 0's
engine writes directly (lines 170–171), or the buffer is zeroed when slot 0
is inert (lines 172–176) — in both cases `slotOut` of slot 0 — then slots
1.. are accumulated (lines 179–197). -/
def performMix (slots : List Slot) (ch f : ℕ) : ℝ :=
  match slots with
  | [] => 0
  | s0 :: rest => sumTail ch f rest (slotOut s0 ch f)

/-- Embedding of `voice_alloc_perform` (lines 163–198) as the per-sample value of the host
output buffer after the call.  `prev` is the buffer content before the call;
only channels `ch < min numOuts numOutChannels` and frames `f < n` are
written. -/
def voice_alloc_perform (va : VoiceAllocator) (prev : ℕ → ℕ → ℝ)
    (numOuts n : ℕ) : ℕ → ℕ → ℝ :=
  let outCh := min numOuts va.numOutChannels
  fun ch f =>
    if ch < outCh ∧ f < n then performMix va.slots ch f
    else prev ch f

/-- Embedding of `voice_alloc_reset` (lines 201–209): every live engine receives a reset
call, every slot is unbound, the counter restarts at 0; engine handles are
neither destroyed nor recreated. -/
def voice_alloc_reset (va : VoiceAllocator) : VoiceAllocator :=
  { va with
    slots := va.slots.map (fun s =>
      { s with engine := s.engine.map Engine.resetCall, note := -1 }),
    counter := 0 }

/-- Default slot used for `List.getD` in statements (never read in range). -/
def dSlot : Slot := ⟨none, -1, 0⟩

/-! ### Generic list access lemmas -/

theorem getD_set_of_ne {α : Type} (l : List α) (i j : ℕ) (a d : α)
    (h : i ≠ j) : (l.set i a).getD j d = l.getD j d := by
  induction l generalizing i j with
  | nil => rfl
  | cons x xs ih =>
    cases i with
    | zero =>
      cases j with
      | zero => exact absurd rfl h
      | succ j => rfl
    | succ i =>
      cases j with
      | zero => rfl
      | succ j => exact ih i j (fun hc => h (by omega))

theorem getD_set_self {α : Type} (l : List α) (i : ℕ) (a d : α)
    (h : i < l.length) : (l.set i a).getD i d = a := by
  induction l generalizing i with
  | nil => simp at h
  | cons x xs ih =>
    cases i with
    | zero => rfl
    | succ i => exact ih i (by simpa using h)

theorem get?_getD {α : Type} (l : List α) (i : ℕ) (a d : α)
    (h : l.get? i = some a) : l.getD i d = a := by
  induction l generalizing i with
  | nil => simp at h
  | cons x xs ih =>
    cases i with
    | zero =>
      simp [List.get?] at h
      subst h
      rfl
    | succ i => exact ih i (by simpa using h)

theorem get?_of_lt {α : Type} (l : List α) (i : ℕ) (h : i < l.length) :
    ∃ a, l.get? i = some a := by
  induction l generalizing i with
  | nil => simp at h
  | cons x xs ih =>
    cases i with
    | zero => exact ⟨x, rfl⟩
    | succ i => exact ih i (by simpa using h)

theorem getD_append_left {α : Type} (l₁ l₂ : List α) (j : ℕ) (d : α)
    (h : j < l₁.length) : (l₁ ++ l₂).getD j d = l₁.getD j d := by
  induction l₁ generalizing j with
  | nil => simp at h
  | cons x xs ih =>
    cases j with
    | zero => rfl
    | succ j => exact ih j (by simpa using h)

theorem getD_append_right {α : Type} (l₁ l₂ : List α) (j : ℕ) (d : α) :
    (l₁ ++ l₂).getD (l₁.length + j) d = l₂.getD j d := by
  induction l₁ with
  | nil => simp
  | cons x xs ih => simpa [Nat.succ_add] using ih

theorem set_append_len {α : Type} (l₁ : List α) (x : α) (l₂ : List α) (y : α) :
    (l₁ ++ x :: l₂).set l₁.length y = l₁ ++ y :: l₂ := by
  induction l₁ with
  | nil => rfl
  | cons z zs ih => simp [ih]

theorem get?_append_len {α : Type} (l₁ : List α) (x : α) (l₂ : List α) :
    (l₁ ++ x :: l₂).get? l₁.length = some x := by
  induction l₁ with
  | nil => rfl
  | cons z zs ih => simpa using ih

theorem getD_mem {α : Type} (l : List α) (j : ℕ) (d : α) (h : j < l.length) :
    l.getD j d ∈ l := by
  induction l generalizing j with
  | nil => simp at h
  | cons x xs ih =>
    cases j with
    | zero => exact List.mem_cons_self x xs
    | succ j => exact List.mem_cons_of_mem x (ih j (by simpa using h))

theorem getD_map_age (l : List Slot) (j : ℕ) (hj : j < l.length) :
    (l.map Slot.age).getD j 0 = (l.getD j dSlot).age := by
  induction l generalizing j with
  | nil => simp at hj
  | cons x xs ih =>
    cases j with
    | zero => rfl
    | succ j => exact ih j (by simpa using hj)

/-! ### Free-voice scan -/

theorem findFreeIdx_eq_none (l : List Slot) (h : ∀ s ∈ l, 0 ≤ s.note) :
    findFreeIdx l = none := by
  induction l with
  | nil => rfl
  | cons s rest ih =>
    have hs : ¬ s.note < 0 := not_lt.mpr (h s (List.mem_cons_self s rest))
    simp [findFreeIdx, hs, ih (fun t ht => h t (List.mem_cons_of_mem s ht))]

theorem findFreeIdx_lt (l : List Slot) (v : ℕ) (h : findFreeIdx l = some v) :
    v < l.length := by
  induction l generalizing v with
  | nil => simp [findFreeIdx] at h
  | cons s rest ih =>
    by_cases hs : s.note < 0
    · have hv : v = 0 := by
        simp [findFreeIdx, hs] at h
        omega
      subst hv
      simp
    · simp [findFreeIdx, hs] at h
      obtain ⟨w, hw, hwv⟩ := h
      have := ih w hw
      simp [← hwv]
      omega

theorem findFreeIdx_free (l : List Slot) (v : ℕ) (h : findFreeIdx l = some v) :
    (l.getD v dSlot).note < 0 := by
  induction l generalizing v with
  | nil => simp [findFreeIdx] at h
  | cons s rest ih =>
    by_cases hs : s.note < 0
    · simp [findFreeIdx, hs] at h
      simpa [← h] using hs
    · simp [findFreeIdx, hs] at h
      obtain ⟨w, hw, hwv⟩ := h
      subst hwv
      simpa using ih w hw

theorem findFreeIdx_first (l : List Slot) (v : ℕ) (h : findFreeIdx l = some v) :
    ∀ j, j < v → 0 ≤ (l.getD j dSlot).note := by
  induction l generalizing v with
  | nil => simp [findFreeIdx] at h
  | cons s rest ih =>
    by_cases hs : s.note < 0
    · simp [findFreeIdx, hs] at h
      intro j hj
      omega
    · simp [findFreeIdx, hs] at h
      obtain ⟨w, hw, hwv⟩ := h
      subst hwv
      intro j hj
      cases j with
      | zero => simpa using not_lt.mp hs
      | succ j => simpa using ih w hw j (by omega)

theorem findFreeIdx_append (bound : List Slot) (f : Slot) (rest : List Slot)
    (hb : ∀ s ∈ bound, 0 ≤ s.note) (hf : f.note = -1) :
    findFreeIdx (bound ++ f :: rest) = some bound.length := by
  induction bound with
  | nil => simp [findFreeIdx, hf]
  | cons s bs ih =>
    have hs : ¬ s.note < 0 := not_lt.mpr (hb s (List.mem_cons_self s bs))
    simp [findFreeIdx, hs, ih (fun t ht => hb t (List.mem_cons_of_mem s ht))]

/-! ### Steal scan: the running first-strictly-less minimum -/

/-- Full characterisation of the steal scan: the final best age is a lower
bound for the accumulator and everything scanned; the final best index is
either the incoming accumulator (when nothing beat it) or points at the
first element realising a strict improvement chain down to the minimum. -/
theorem stealScanP_spec (l : List ℕ) : ∀ best bestAge v : ℕ,
    ((stealScanP best bestAge v l).2 ≤ bestAge ∧
      ∀ a ∈ l, (stealScanP best bestAge v l).2 ≤ a) ∧
    (((stealScanP best bestAge v l).1 = best ∧
        (stealScanP best bestAge v l).2 = bestAge) ∨
      ∃ k, k < l.length ∧ (stealScanP best bestAge v l).1 = v + k ∧
        l.getD k 0 = (stealScanP best bestAge v l).2 ∧
        (stealScanP best bestAge v l).2 < bestAge ∧
        ∀ j, j < k → (stealScanP best bestAge v l).2 < l.getD j 0) := by
  induction l with
  | nil =>
    intro best bestAge v
    refine ⟨⟨le_refl _, by simp⟩, Or.inl ⟨rfl, rfl⟩⟩
  | cons a rest ih =>
    intro best bestAge v
    by_cases ha : a < bestAge
    · have h := ih v a (v + 1)
      have heq : stealScanP best bestAge v (a :: rest) = stealScanP v a (v + 1) rest := by
        simp [stealScanP, ha]
      rw [heq]
      obtain ⟨⟨hle, hall⟩, hcase⟩ := h
      refine ⟨⟨le_trans hle (le_of_lt ha), ?_⟩, ?_⟩
      · intro x hx
        rcases List.mem_cons.mp hx with hx | hx
        · exact hx ▸ hle
        · exact hall x hx
      · rcases hcase with ⟨h1, h2⟩ | ⟨k, hk, h1, h2, h3, h4⟩
        · refine Or.inr ⟨0, by simp, by omega, by simpa using h2.symm, by omega, ?_⟩
          intro j hj
          omega
        · refine Or.inr ⟨k + 1, by simpa using hk, by omega, by simpa using h2, by omega, ?_⟩
          intro j hj
          cases j with
          | zero => simpa using h3
          | succ j => simpa using h4 j (by omega)
    · have h := ih best bestAge (v + 1)
      have heq : stealScanP best bestAge v (a :: rest) = stealScanP best bestAge (v + 1) rest := by
        simp [stealScanP, ha]
      rw [heq]
      obtain ⟨⟨hle, hall⟩, hcase⟩ := h
      refine ⟨⟨hle, ?_⟩, ?_⟩
      · intro x hx
        rcases List.mem_cons.mp hx with hx | hx
        · exact hx ▸ le_trans hle (not_lt.mp ha)
        · exact hall x hx
      · rcases hcase with ⟨h1, h2⟩ | ⟨k, hk, h1, h2, h3, h4⟩
        · exact Or.inl ⟨h1, h2⟩
        · refine Or.inr ⟨k + 1, by simpa using hk, by omega, by simpa using h2, h3, ?_⟩
          intro j hj
          cases j with
          | zero =>
            simpa using lt_of_lt_of_le h3 (not_lt.mp ha)
          | succ j => simpa using h4 j (by omega)

/-- The stolen index is in range, its age is the minimum of all slot ages,
and every earlier index has a strictly larger age (first-strictly-less
tie-breaking). -/
theorem stealIdx_spec (slots : List Slot) (hne : slots ≠ []) :
    stealIdx slots < slots.length ∧
    (∀ j, j < slots.length →
      (slots.getD (stealIdx slots) dSlot).age ≤ (slots.getD j dSlot).age) ∧
    (∀ j, j < stealIdx slots →
      (slots.getD (stealIdx slots) dSlot).age < (slots.getD j dSlot).age) := by
  match slots, hne with
  | s0 :: rest, _ =>
    have h := stealScanP_spec (rest.map Slot.age) 0 s0.age 1
    obtain ⟨⟨hle, hall⟩, hcase⟩ := h
    have hidx : stealIdx (s0 :: rest) = (stealScanP 0 s0.age 1 (rest.map Slot.age)).1 := rfl
    rcases hcase with ⟨h1, h2⟩ | ⟨k, hk, h1, h2, h3, h4⟩
    · -- nothing beat slot 0
      rw [hidx, h1]
      refine ⟨by simp, ?_, ?_⟩
      · intro j hj
        cases j with
        | zero => simp
        | succ j =>
          have hj' : j < rest.length := by simpa using hj
          have := hall ((rest.getD j dSlot).age)
            (by
              have : (rest.map Slot.age).getD j 0 = (rest.getD j dSlot).age :=
                getD_map_age rest j hj'
              rw [← this]
              exact getD_mem _ _ _ (by simpa using hj'))
          simpa [h2] using this
      · intro j hj
        omega
    · -- first strict improvement at rest-index k
      rw [hidx, h1]
      have hk' : k < rest.length := by simpa using hk
      have hkage : (rest.getD k dSlot).age =
          (stealScanP 0 s0.age 1 (rest.map Slot.age)).2 := by
        rw [← getD_map_age rest k hk']
        exact h2
      refine ⟨by simp; omega, ?_, ?_⟩
      · intro j hj
        cases j with
        | zero =>
          have : (1 + k : ℕ) = k + 1 := by omega
          simp only [this, List.getD_cons_succ, List.getD_cons_zero]
          rw [hkage]
          exact le_of_lt h3
        | succ j =>
          have hj' : j < rest.length := by simpa using hj
          have : (1 + k : ℕ) = k + 1 := by omega
          simp only [this, List.getD_cons_succ]
          rw [hkage]
          have := hall ((rest.getD j dSlot).age)
            (by
              have hmap : (rest.map Slot.age).getD j 0 = (rest.getD j dSlot).age :=
                getD_map_age rest j hj'
              rw [← hmap]
              exact getD_mem _ _ _ (by simpa using hj'))
          exact this
      · intro j hj
        have : (1 + k : ℕ) = k + 1 := by omega
        rw [this] at hj
        cases j with
        | zero =>
          simp only [this, List.getD_cons_succ, List.getD_cons_zero]
          rw [hkage]
          exact h3
        | succ j =>
          have hjk : j < k := by omega
          simp only [this, List.getD_cons_succ]
          rw [hkage]
          have := h4 j hjk
          rw [getD_map_age rest j (by omega)] at this
          exact this

/-! ### Shape lemmas for the note-on mutation stages -/

theorem length_updateEngineAt (slots : List Slot) (v : ℕ) (f : Engine → Engine) :
    (updateEngineAt slots v f).length = slots.length := by
  unfold updateEngineAt
  cases h : slots.get? v with
  | none => rfl
  | some s =>
    obtain ⟨eng, nt, ag⟩ := s
    cases eng with
    | none => rfl
    | some e => simp

theorem length_bindSlot (slots : List Slot) (v : ℕ) (n : ℤ) (a : ℕ) :
    (bindSlot slots v n a).length = slots.length := by
  unfold bindSlot
  cases h : slots.get? v with
  | none => rfl
  | some s => simp

theorem length_stolenGateOff (cfg : MidiCfg) (slots : List Slot) (v : ℕ) :
    (stolenGateOff cfg slots v).length = slots.length := by
  unfold stolenGateOff
  cases cfg.gateIdx with
  | none => rfl
  | some g => exact length_updateEngineAt slots v _

theorem get?_lt_length {α : Type} (l : List α) (i : ℕ) (a : α)
    (h : l.get? i = some a) : i < l.length := by
  induction l generalizing i with
  | nil => simp at h
  | cons x xs ih =>
    cases i with
    | zero => simp
    | succ i =>
      have := ih i (by simpa using h)
      simpa using this

theorem note_updateEngineAt (slots : List Slot) (v : ℕ) (f : Engine → Engine)
    (j : ℕ) : ((updateEngineAt slots v f).getD j dSlot).note
      = (slots.getD j dSlot).note := by
  unfold updateEngineAt
  cases h : slots.get? v with
  | none => rfl
  | some s =>
    obtain ⟨eng, nt, ag⟩ := s
    cases eng with
    | none => rfl
    | some e =>
      by_cases hj : v = j
      · subst hj
        rw [getD_set_self _ _ _ _ (get?_lt_length _ _ _ h),
          get?_getD _ _ _ dSlot h]
      · rw [getD_set_of_ne _ _ _ _ _ hj]

theorem age_updateEngineAt (slots : List Slot) (v : ℕ) (f : Engine → Engine)
    (j : ℕ) : ((updateEngineAt slots v f).getD j dSlot).age
      = (slots.getD j dSlot).age := by
  unfold updateEngineAt
  cases h : slots.get? v with
  | none => rfl
  | some s =>
    obtain ⟨eng, nt, ag⟩ := s
    cases eng with
    | none => rfl
    | some e =>
      by_cases hj : v = j
      · subst hj
        rw [getD_set_self _ _ _ _ (get?_lt_length _ _ _ h),
          get?_getD _ _ _ dSlot h]
      · rw [getD_set_of_ne _ _ _ _ _ hj]

theorem note_stolenGateOff (cfg : MidiCfg) (slots : List Slot) (v j : ℕ) :
    ((stolenGateOff cfg slots v).getD j dSlot).note
      = (slots.getD j dSlot).note := by
  unfold stolenGateOff
  cases cfg.gateIdx with
  | none => rfl
  | some g => exact note_updateEngineAt slots v _ j

theorem engine_bindSlot (slots : List Slot) (v : ℕ) (n : ℤ) (a : ℕ) (j : ℕ) :
    ((bindSlot slots v n a).getD j dSlot).engine
      = (slots.getD j dSlot).engine := by
  unfold bindSlot
  cases h : slots.get? v with
  | none => rfl
  | some s =>
    by_cases hj : v = j
    · subst hj
      rw [getD_set_self _ _ _ _ (get?_lt_length _ _ _ h),
        get?_getD _ _ _ dSlot h]
    · rw [getD_set_of_ne _ _ _ _ _ hj]

theorem note_bindSlot_self (slots : List Slot) (v : ℕ) (n : ℤ) (a : ℕ)
    (h : v < slots.length) :
    ((bindSlot slots v n a).getD v dSlot).note = n := by
  unfold bindSlot
  obtain ⟨s, hs⟩ := get?_of_lt slots v h
  rw [hs]
  rw [getD_set_self _ _ _ _ h]

theorem note_bindSlot_ne (slots : List Slot) (v : ℕ) (n : ℤ) (a : ℕ) (j : ℕ)
    (hj : j ≠ v) :
    ((bindSlot slots v n a).getD j dSlot).note = (slots.getD j dSlot).note := by
  unfold bindSlot
  cases h : slots.get? v with
  | none => rfl
  | some s => rw [getD_set_of_ne _ _ _ _ _ (fun hc => hj hc.symm)]

theorem age_bindSlot_self (slots : List Slot) (v : ℕ) (n : ℤ) (a : ℕ)
    (h : v < slots.length) :
    ((bindSlot slots v n a).getD v dSlot).age = a := by
  unfold bindSlot
  obtain ⟨s, hs⟩ := get?_of_lt slots v h
  rw [hs]
  rw [getD_set_self _ _ _ _ h]

/-- Steal path of `voice_alloc_note_on`: when no slot is free, the stolen
index is returned, the pool size is unchanged, the stolen slot is rebound to
the incoming note, and every other slot's note is untouched. -/
theorem noteOn_steal_shape (cfg : MidiCfg) (va : VoiceAllocator) (note : ℤ)
    (vel : ℝ) (hfree : findFreeIdx va.slots = none) (hne : va.slots ≠ []) :
    (voice_alloc_note_on cfg va note vel).2 = stealIdx va.slots ∧
    (voice_alloc_note_on cfg va note vel).1.slots.length = va.slots.length ∧
    (∀ j, j ≠ stealIdx va.slots →
      ((voice_alloc_note_on cfg va note vel).1.slots.getD j dSlot).note
        = (va.slots.getD j dSlot).note) ∧
    ((voice_alloc_note_on cfg va note vel).1.slots.getD (stealIdx va.slots)
        dSlot).note = note := by
  have hlt : stealIdx va.slots < va.slots.length := (stealIdx_spec va.slots hne).1
  unfold voice_alloc_note_on
  rw [hfree]
  refine ⟨rfl, ?_, ?_, ?_⟩
  · simp only
    rw [length_updateEngineAt, length_bindSlot, length_stolenGateOff]
  · intro j hj
    simp only
    rw [note_updateEngineAt, note_bindSlot_ne _ _ _ _ _ hj, note_stolenGateOff]
  · simp only
    rw [note_updateEngineAt, note_bindSlot_self]
    rw [length_stolenGateOff]
    exact hlt

/-- Free path of `voice_alloc_note_on`: the first free index is returned and
bound; every other slot's note is untouched. -/
theorem noteOn_free_shape (cfg : MidiCfg) (va : VoiceAllocator) (note : ℤ)
    (vel : ℝ) (v : ℕ) (hfree : findFreeIdx va.slots = some v) :
    (voice_alloc_note_on cfg va note vel).2 = v ∧
    (voice_alloc_note_on cfg va note vel).1.slots.length = va.slots.length ∧
    (∀ j, j ≠ v →
      ((voice_alloc_note_on cfg va note vel).1.slots.getD j dSlot).note
        = (va.slots.getD j dSlot).note) ∧
    ((voice_alloc_note_on cfg va note vel).1.slots.getD v dSlot).note = note := by
  have hlt : v < va.slots.length := findFreeIdx_lt va.slots v hfree
  unfold voice_alloc_note_on
  rw [hfree]
  refine ⟨rfl, ?_, ?_, ?_⟩
  · simp only
    rw [length_updateEngineAt, length_bindSlot]
  · intro j hj
    simp only
    rw [note_updateEngineAt, note_bindSlot_ne _ _ _ _ _ hj]
  · simp only
    rw [note_updateEngineAt, note_bindSlot_self _ _ _ _ hlt]

/-! ### Claim C1: oldest-steal on a full pool -/

/-- C1 (amended).  With every slot bound, `voice_alloc_note_on` selects
exactly the slot whose age is minimal among all slots, ties broken by lowest
index (first-strictly-less left-to-right scan).  Moreover, provided the
incoming note differs from the stolen slot's prior note and no other slot is
bound to that prior note, the prior note is no longer bound to any slot after
the call. -/
theorem noteOn_full_pool_steals_least_aged (cfg : MidiCfg)
    (va : VoiceAllocator) (note : ℤ) (vel : ℝ) (hne : va.slots ≠ [])
    (hfull : ∀ s ∈ va.slots, 0 ≤ s.note) :
    (voice_alloc_note_on cfg va note vel).2 < va.slots.length ∧
    (∀ j, j < va.slots.length →
      (va.slots.getD (voice_alloc_note_on cfg va note vel).2 dSlot).age
        ≤ (va.slots.getD j dSlot).age) ∧
    (∀ j, j < (voice_alloc_note_on cfg va note vel).2 →
      (va.slots.getD (voice_alloc_note_on cfg va note vel).2 dSlot).age
        < (va.slots.getD j dSlot).age) ∧
    ((note ≠ (va.slots.getD (voice_alloc_note_on cfg va note vel).2 dSlot).note ∧
      (∀ j, j < va.slots.length → j ≠ (voice_alloc_note_on cfg va note vel).2 →
        (va.slots.getD j dSlot).note
          ≠ (va.slots.getD (voice_alloc_note_on cfg va note vel).2 dSlot).note)) →
      ∀ j, ((voice_alloc_note_on cfg va note vel).1.slots.getD j dSlot).note
        ≠ (va.slots.getD (voice_alloc_note_on cfg va note vel).2 dSlot).note) := by
  have hfree : findFreeIdx va.slots = none := findFreeIdx_eq_none va.slots hfull
  obtain ⟨hv, hlen, hpres, hbound⟩ := noteOn_steal_shape cfg va note vel hfree hne
  obtain ⟨hlt, hmin, hties⟩ := stealIdx_spec va.slots hne
  rw [hv]
  refine ⟨hlt, hmin, hties, ?_⟩
  rintro ⟨hnew, hothers⟩ j
  by_cases hj : j = stealIdx va.slots
  · subst hj
    rw [hbound]
    exact hnew
  · by_cases hjl : j < va.slots.length
    · rw [hpres j hj]
      exact hothers j hjl hj
    · have hprior : 0 ≤ (va.slots.getD (stealIdx va.slots) dSlot).note :=
        hfull _ (getD_mem va.slots (stealIdx va.slots) dSlot hlt)
      have hout : va.slots.getD j dSlot = dSlot := by
        apply List.getD_eq_default
        omega
      rw [hpres j hj, hout]
      intro hc
      rw [← hc] at hprior
      norm_num [dSlot] at hprior

/-- Counterexample to C1 as stated: a full two-slot pool bound to notes 5
and 7 with ages 0 and 1; `noteOn 5` steals slot 0 (the least-aged slot,
whose prior note is 5) and rebinds it to 5, so the stolen slot's prior note
number is still bound to a slot after the call. -/
theorem noteOn_steal_prior_note_still_bound_cex :
    (∀ s ∈ (⟨[⟨none, 5, 0⟩, ⟨none, 7, 1⟩], 2, 1, 8⟩ : VoiceAllocator).slots,
      0 ≤ s.note) ∧
    (voice_alloc_note_on ⟨none, none, none, false⟩
      ⟨[⟨none, 5, 0⟩, ⟨none, 7, 1⟩], 2, 1, 8⟩ 5 1).2 = 0 ∧
    ((⟨[⟨none, 5, 0⟩, ⟨none, 7, 1⟩], 2, 1, 8⟩ : VoiceAllocator).slots.getD 0
      dSlot).note = 5 ∧
    ((voice_alloc_note_on ⟨none, none, none, false⟩
      ⟨[⟨none, 5, 0⟩, ⟨none, 7, 1⟩], 2, 1, 8⟩ 5 1).1.slots.getD 0 dSlot).note
      = 5 := by
  refine ⟨?_, ?_, ?_, ?_⟩
  · intro s hs
    simp only [List.mem_cons, List.not_mem_nil, or_false] at hs
    rcases hs with h | h <;> simp [h]
  · rfl
  · rfl
  · rfl

/-- Witness for C1: the amended theorem applied to a full three-slot pool
with distinct notes 5, 7, 9 and minimal age 1 at slot 1, and incoming
note 11. -/
theorem noteOn_full_pool_steals_least_aged_witness :
    ((⟨[⟨none, 5, 3⟩, ⟨none, 7, 1⟩, ⟨none, 9, 2⟩], 4, 1, 8⟩ : VoiceAllocator).slots
      ≠ [] ∧
     ∀ s ∈ (⟨[⟨none, 5, 3⟩, ⟨none, 7, 1⟩, ⟨none, 9, 2⟩], 4, 1, 8⟩ :
        VoiceAllocator).slots, 0 ≤ s.note) ∧
    (voice_alloc_note_on ⟨none, none, none, false⟩
        ⟨[⟨none, 5, 3⟩, ⟨none, 7, 1⟩, ⟨none, 9, 2⟩], 4, 1, 8⟩ 11 1).2
      < (⟨[⟨none, 5, 3⟩, ⟨none, 7, 1⟩, ⟨none, 9, 2⟩], 4, 1, 8⟩ :
        VoiceAllocator).slots.length :=
  ⟨⟨by simp, by
      intro s hs
      simp only [List.mem_cons, List.not_mem_nil, or_false] at hs
      rcases hs with h | h | h <;> simp [h]⟩,
    (noteOn_full_pool_steals_least_aged ⟨none, none, none, false⟩
      ⟨[⟨none, 5, 3⟩, ⟨none, 7, 1⟩, ⟨none, 9, 2⟩], 4, 1, 8⟩ 11 1
      (by simp)
      (by
        intro s hs
        simp only [List.mem_cons, List.not_mem_nil, or_false] at hs
        rcases hs with h | h | h <;> simp [h])).1⟩

/-! ### Claim C2: inertness and slot selection -/

theorem findFreeIdx_congr (l l' : List Slot)
    (h : l.map Slot.note = l'.map Slot.note) : findFreeIdx l = findFreeIdx l' := by
  induction l generalizing l' with
  | nil =>
    cases l' with
    | nil => rfl
    | cons s' rest' => simp at h
  | cons s rest ih =>
    cases l' with
    | nil => simp at h
    | cons s' rest' =>
      simp only [List.map_cons, List.cons.injEq] at h
      obtain ⟨h1, h2⟩ := h
      simp [findFreeIdx, h1, ih rest' h2]

theorem stealIdx_congr (l l' : List Slot)
    (h : l.map Slot.age = l'.map Slot.age) : stealIdx l = stealIdx l' := by
  cases l with
  | nil =>
    cases l' with
    | nil => rfl
    | cons s' rest' => simp at h
  | cons s rest =>
    cases l' with
    | nil => simp at h
    | cons s' rest' =>
      simp only [List.map_cons, List.cons.injEq] at h
      obtain ⟨h1, h2⟩ := h
      simp [stealIdx, h1, h2]

theorem engine_updateEngineAt_ne (slots : List Slot) (v : ℕ)
    (f : Engine → Engine) (j : ℕ) (hj : j ≠ v) :
    ((updateEngineAt slots v f).getD j dSlot).engine
      = (slots.getD j dSlot).engine := by
  unfold updateEngineAt
  cases h : slots.get? v with
  | none => rfl
  | some s =>
    obtain ⟨eng, nt, ag⟩ := s
    cases eng with
    | none => rfl
    | some e => rw [getD_set_of_ne _ _ _ _ _ (fun hc => hj hc.symm)]

theorem updateEngineAt_inert (slots : List Slot) (v : ℕ) (f : Engine → Engine)
    (h : (slots.getD v dSlot).engine = none) :
    updateEngineAt slots v f = slots := by
  unfold updateEngineAt
  cases hv : slots.get? v with
  | none => rfl
  | some s =>
    obtain ⟨eng, nt, ag⟩ := s
    cases eng with
    | none => rfl
    | some e =>
      rw [get?_getD _ _ _ dSlot hv] at h
      simp at h

theorem stolenGateOff_inert (cfg : MidiCfg) (slots : List Slot) (v : ℕ)
    (h : (slots.getD v dSlot).engine = none) :
    stolenGateOff cfg slots v = slots := by
  unfold stolenGateOff
  cases cfg.gateIdx with
  | none => rfl
  | some g => exact updateEngineAt_inert slots v _ h

/-- C2 (amended).  `voice_alloc_note_on` does not exclude inert slots from
selection: the selected voice depends only on the slots' bound notes and
ages, never on engine liveness (so an inert slot is selected and bound
exactly as a live one would be).  What inertness does suppress is every
engine write: when the selected slot is inert, no slot's engine is modified
by the call. -/
theorem noteOn_selection_ignores_inertness (cfg : MidiCfg)
    (va va' : VoiceAllocator) (note : ℤ) (vel : ℝ)
    (hnotes : va.slots.map Slot.note = va'.slots.map Slot.note)
    (hages : va.slots.map Slot.age = va'.slots.map Slot.age) :
    (voice_alloc_note_on cfg va note vel).2
      = (voice_alloc_note_on cfg va' note vel).2 ∧
    ((va.slots.getD (voice_alloc_note_on cfg va note vel).2 dSlot).engine = none →
      ∀ j, ((voice_alloc_note_on cfg va note vel).1.slots.getD j dSlot).engine
        = (va.slots.getD j dSlot).engine) := by
  have hf := findFreeIdx_congr va.slots va'.slots hnotes
  constructor
  · unfold voice_alloc_note_on
    rw [hf]
    cases hfi : findFreeIdx va'.slots with
    | some v => simp
    | none => simp [stealIdx_congr va.slots va'.slots hages]
  · intro hinert j
    unfold voice_alloc_note_on at hinert ⊢
    cases hfi : findFreeIdx va.slots with
    | some v =>
      rw [hfi] at hinert
      simp only at hinert ⊢
      have h2 : ((bindSlot va.slots v note va.counter).getD v dSlot).engine
          = none := by
        rw [engine_bindSlot]
        exact hinert
      rw [updateEngineAt_inert _ _ _ h2, engine_bindSlot]
    | none =>
      rw [hfi] at hinert
      simp only at hinert ⊢
      have h1 : stolenGateOff cfg va.slots (stealIdx va.slots) = va.slots :=
        stolenGateOff_inert cfg va.slots _ hinert
      rw [h1]
      have h2 : ((bindSlot va.slots (stealIdx va.slots) note va.counter).getD
          (stealIdx va.slots) dSlot).engine = none := by
        rw [engine_bindSlot]
        exact hinert
      rw [updateEngineAt_inert _ _ _ h2, engine_bindSlot]

/-- Counterexample to C2 as stated: slot 0 is inert (engine creation
returned null) and free, slot 1 is live and free; `noteOn` nevertheless
selects slot 0 — the inert slot — and binds it to the incoming note 60. -/
theorem noteOn_selects_inert_slot_cex :
    ((⟨[⟨none, -1, 0⟩, ⟨some ⟨[0], 0, fun _ _ => 0⟩, -1, 0⟩], 0, 1, 8⟩ :
      VoiceAllocator).slots.getD 0 dSlot).engine.isNone = true ∧
    ((⟨[⟨none, -1, 0⟩, ⟨some ⟨[0], 0, fun _ _ => 0⟩, -1, 0⟩], 0, 1, 8⟩ :
      VoiceAllocator).slots.getD 1 dSlot).engine.isSome = true ∧
    (voice_alloc_note_on ⟨none, none, none, false⟩
      ⟨[⟨none, -1, 0⟩, ⟨some ⟨[0], 0, fun _ _ => 0⟩, -1, 0⟩], 0, 1, 8⟩ 60 1).2
      = 0 ∧
    ((voice_alloc_note_on ⟨none, none, none, false⟩
      ⟨[⟨none, -1, 0⟩, ⟨some ⟨[0], 0, fun _ _ => 0⟩, -1, 0⟩], 0, 1, 8⟩ 60 1).1.slots.getD
        0 dSlot).note = 60 :=
  ⟨rfl, rfl, rfl, rfl⟩

/-- Witness for C2: the amended theorem applied to a pool whose slot 0 is
inert, compared against the same pool with slot 0 made live; the selected
voice is slot 0 in both, and no engine is modified in the inert pool. -/
theorem noteOn_selection_ignores_inertness_witness :
    ((⟨[⟨none, -1, 0⟩], 0, 1, 8⟩ : VoiceAllocator).slots.map Slot.note
      = (⟨[⟨some ⟨[0], 0, fun _ _ => 0⟩, -1, 0⟩], 0, 1, 8⟩ :
          VoiceAllocator).slots.map Slot.note ∧
     (⟨[⟨none, -1, 0⟩], 0, 1, 8⟩ : VoiceAllocator).slots.map Slot.age
      = (⟨[⟨some ⟨[0], 0, fun _ _ => 0⟩, -1, 0⟩], 0, 1, 8⟩ :
          VoiceAllocator).slots.map Slot.age) ∧
    (voice_alloc_note_on ⟨none, none, none, false⟩
        ⟨[⟨none, -1, 0⟩], 0, 1, 8⟩ 60 1).2
      = (voice_alloc_note_on ⟨none, none, none, false⟩
        ⟨[⟨some ⟨[0], 0, fun _ _ => 0⟩, -1, 0⟩], 0, 1, 8⟩ 60 1).2 :=
  ⟨⟨rfl, rfl⟩,
    (noteOn_selection_ignores_inertness ⟨none, none, none, false⟩
      ⟨[⟨none, -1, 0⟩], 0, 1, 8⟩
      ⟨[⟨some ⟨[0], 0, fun _ _ => 0⟩, -1, 0⟩], 0, 1, 8⟩ 60 1 rfl rfl).1⟩

/-! ### Claim C3: the frequency value written on note-on -/

theorem length_setParam (e : Engine) (i : ℕ) (v : ℝ) :
    (e.setParam i v).params.length = e.params.length := by
  simp [Engine.setParam]

theorem getParam_setParam_self (e : Engine) (i : ℕ) (v : ℝ)
    (h : i < e.params.length) : (e.setParam i v).getParam i = v := by
  unfold Engine.setParam Engine.getParam
  exact getD_set_self _ _ _ _ h

theorem getParam_setParam_ne (e : Engine) (i j : ℕ) (v : ℝ) (h : i ≠ j) :
    (e.setParam i v).getParam j = e.getParam j := by
  unfold Engine.setParam Engine.getParam
  exact getD_set_of_ne _ _ _ _ _ h

theorem engine_updateEngineAt_self (slots : List Slot) (v : ℕ)
    (f : Engine → Engine) (e : Engine)
    (h : (slots.getD v dSlot).engine = some e) (hv : v < slots.length) :
    ((updateEngineAt slots v f).getD v dSlot).engine = some (f e) := by
  obtain ⟨s, hs⟩ := get?_of_lt slots v hv
  have hsd : slots.getD v dSlot = s := get?_getD _ _ _ _ hs
  unfold updateEngineAt
  rw [hs]
  obtain ⟨eng, nt, ag⟩ := s
  rw [hsd] at h
  simp only at h
  subst h
  rw [getD_set_self _ _ _ _ hv]

/-- The engine of the slot selected by `voice_alloc_note_on`, after the call:
it is the original engine, possibly hit by the steal-path gate-off first,
then subjected to the note-on control writes. -/
theorem engine_noteOn_selected (cfg : MidiCfg) (va : VoiceAllocator)
    (note : ℤ) (vel : ℝ) (e : Engine)
    (h : (va.slots.getD (voice_alloc_note_on cfg va note vel).2 dSlot).engine
      = some e) :
    ∃ e', e'.params.length = e.params.length ∧
      (∀ idx, (∀ g, cfg.gateIdx = some g → idx ≠ g) →
        e'.getParam idx = e.getParam idx) ∧
      ((voice_alloc_note_on cfg va note vel).1.slots.getD
          (voice_alloc_note_on cfg va note vel).2 dSlot).engine
        = some (noteOnWrites cfg note vel e') := by
  unfold voice_alloc_note_on at h ⊢
  cases hfi : findFreeIdx va.slots with
  | some v =>
    rw [hfi] at h
    simp only at h ⊢
    have hv : v < va.slots.length := findFreeIdx_lt va.slots v hfi
    refine ⟨e, rfl, fun _ _ => rfl, ?_⟩
    have hb : ((bindSlot va.slots v note va.counter).getD v dSlot).engine
        = some e := by
      rw [engine_bindSlot]
      exact h
    exact engine_updateEngineAt_self _ _ _ _ hb
      (by rw [length_bindSlot]; exact hv)
  | none =>
    rw [hfi] at h
    simp only at h ⊢
    set i := stealIdx va.slots with hi
    have hne : va.slots ≠ [] := by
      intro hnil
      rw [hnil] at h
      simp [dSlot] at h
    have hv : i < va.slots.length := (stealIdx_spec va.slots hne).1
    -- engine at i after the stolen gate-off
    cases hg : cfg.gateIdx with
    | none =>
      have h1 : stolenGateOff cfg va.slots i = va.slots := by
        unfold stolenGateOff
        rw [hg]
      refine ⟨e, rfl, fun _ _ => rfl, ?_⟩
      rw [h1]
      have hb : ((bindSlot va.slots i note va.counter).getD i dSlot).engine
          = some e := by
        rw [engine_bindSlot]
        exact h
      exact engine_updateEngineAt_self _ _ _ _ hb
        (by rw [length_bindSlot]; exact hv)
    | some g =>
      refine ⟨e.setParam g 0, length_setParam e g 0, ?_, ?_⟩
      · intro idx hidx
        exact getParam_setParam_ne e g idx 0 (fun hc => hidx g rfl hc.symm)
      · have h1 : ((stolenGateOff cfg va.slots i).getD i dSlot).engine
            = some (e.setParam g 0) := by
          unfold stolenGateOff
          rw [hg]
          exact engine_updateEngineAt_self _ _ _ _ h hv
        have hb : ((bindSlot (stolenGateOff cfg va.slots i) i note
            va.counter).getD i dSlot).engine = some (e.setParam g 0) := by
          rw [engine_bindSlot]
          exact h1
        exact engine_updateEngineAt_self _ _ _ _ hb
          (by rw [length_bindSlot, length_stolenGateOff]; exact hv)

/-- C3 (amended).  On a noteOn that selects a slot with a live engine, with a
frequency parameter index configured (distinct from the gate and velocity
indices and in range), the value written at that index is
`440.0 × 2^((note−69)/12)` when the Hz flag is set, and the raw note number
otherwise. -/
theorem noteOn_freq_value_written (cfg : MidiCfg) (va : VoiceAllocator)
    (note : ℤ) (vel : ℝ) (fi : ℕ) (e : Engine)
    (hfi : cfg.freqIdx = some fi)
    (hvel : ∀ vi, cfg.velIdx = some vi → vi ≠ fi)
    (h : (va.slots.getD (voice_alloc_note_on cfg va note vel).2 dSlot).engine
      = some e)
    (hlen : fi < e.params.length) :
    ((voice_alloc_note_on cfg va note vel).1.slots.getD
        (voice_alloc_note_on cfg va note vel).2 dSlot).engine.map
      (fun e2 => e2.getParam fi)
      = some (if cfg.freqUnitHz then 440 * (2 : ℝ) ^ ((((note : ℝ)) - 69) / 12)
          else (note : ℝ)) := by
  obtain ⟨e', hlen', hpres, hfin⟩ := engine_noteOn_selected cfg va note vel e h
  rw [hfin]
  simp only [Option.map_some']
  congr 1
  unfold noteOnWrites
  rw [hfi]
  cases hv : cfg.velIdx with
  | some vi =>
    rw [getParam_setParam_ne _ _ _ _ (hvel vi hv)]
    cases hg : cfg.gateIdx with
    | none =>
      simp only
      rw [getParam_setParam_self _ _ _ (by rw [hlen']; exact hlen), mtof]
    | some g =>
      simp only
      rw [getParam_setParam_self _ _ _
        (by rw [length_setParam, hlen']; exact hlen), mtof]
  | none =>
    cases hg : cfg.gateIdx with
    | none =>
      simp only
      rw [getParam_setParam_self _ _ _ (by rw [hlen']; exact hlen), mtof]
    | some g =>
      simp only
      rw [getParam_setParam_self _ _ _
        (by rw [length_setParam, hlen']; exact hlen), mtof]

/-- Counterexample to C3 as stated: with the Hz flag set, `noteOn` at MIDI
note 69 (concert A) writes `440.0` to the frequency index, not
`443.0 × 2^((69−69)/12) = 443.0` as the claim's formula demands. -/
theorem noteOn_freq_443_cex :
    ((voice_alloc_note_on ⟨none, some 0, none, true⟩
        ⟨[⟨some ⟨[0], 0, fun _ _ => 0⟩, -1, 0⟩], 0, 1, 8⟩ 69 1).1.slots.getD 0
        dSlot).engine.map (fun e2 => e2.getParam 0) = some 440 ∧
    (440 : ℝ) ≠ 443 := by
  constructor
  · have h1 : ((voice_alloc_note_on ⟨none, some 0, none, true⟩
        ⟨[⟨some ⟨[0], 0, fun _ _ => 0⟩, -1, 0⟩], 0, 1, 8⟩ 69 1).1.slots.getD 0
        dSlot).engine.map (fun e2 => e2.getParam 0) = some (mtof 69) := rfl
    rw [h1, mtof]
    norm_num [Real.rpow_zero]
  · norm_num

/-- Witness for C3: the amended theorem applied to a one-slot pool with one
parameter, Hz flag set, note 60. -/
theorem noteOn_freq_value_written_witness :
    ((⟨none, some 0, none, true⟩ : MidiCfg).freqIdx = some 0 ∧
      ((⟨[⟨some ⟨[0], 0, fun _ _ => 0⟩, -1, 0⟩], 0, 1, 8⟩ :
        VoiceAllocator).slots.getD (voice_alloc_note_on
          ⟨none, some 0, none, true⟩
          ⟨[⟨some ⟨[0], 0, fun _ _ => 0⟩, -1, 0⟩], 0, 1, 8⟩ 60 1).2
        dSlot).engine = some ⟨[0], 0, fun _ _ => 0⟩ ∧
      (0 : ℕ) < (⟨[0], 0, fun _ _ => 0⟩ : Engine).params.length) ∧
    ((voice_alloc_note_on ⟨none, some 0, none, true⟩
        ⟨[⟨some ⟨[0], 0, fun _ _ => 0⟩, -1, 0⟩], 0, 1, 8⟩ 60 1).1.slots.getD
        (voice_alloc_note_on ⟨none, some 0, none, true⟩
          ⟨[⟨some ⟨[0], 0, fun _ _ => 0⟩, -1, 0⟩], 0, 1, 8⟩ 60 1).2
        dSlot).engine.map (fun e2 => e2.getParam 0)
      = some (if (⟨none, some 0, none, true⟩ : MidiCfg).freqUnitHz
          then 440 * (2 : ℝ) ^ (((((60 : ℤ) : ℝ)) - 69) / 12)
          else ((60 : ℤ) : ℝ)) :=
  ⟨⟨rfl, rfl, by norm_num⟩,
    noteOn_freq_value_written ⟨none, some 0, none, true⟩
      ⟨[⟨some ⟨[0], 0, fun _ _ => 0⟩, -1, 0⟩], 0, 1, 8⟩ 60 1 0
      ⟨[0], 0, fun _ _ => 0⟩ rfl
      (fun vi hv => by simp at hv)
      rfl (by norm_num)⟩

/-! ### Claims C4 and C6: the mixing pipeline -/

theorem sumTail_eq (ch f : ℕ) (l : List Slot) :
    ∀ acc : ℝ, sumTail ch f l acc
      = acc + (l.map (fun s => slotOut s ch f)).sum := by
  induction l with
  | nil =>
    intro acc
    simp [sumTail]
  | cons s rest ih =>
    intro acc
    cases he : s.engine with
    | none =>
      have h0 : slotOut s ch f = 0 := by simp [slotOut, he]
      simp only [sumTail, he, List.map_cons, List.sum_cons, h0]
      rw [ih acc]
      ring
    | some e =>
      have h0 : slotOut s ch f = e.out ch f := by simp [slotOut, he]
      simp only [sumTail, he, List.map_cons, List.sum_cons, h0]
      rw [ih (acc + e.out ch f)]
      ring

/-- C4.  For a perform call within capacity, on every written channel and
frame the host buffer holds the sum of the contributions of all slots —
each live slot's engine output (whether bound or not), zero for inert
slots — with no normalisation. -/
theorem perform_sums_all_live_slots (va : VoiceAllocator) (prev : ℕ → ℕ → ℝ)
    (numOuts n ch f : ℕ) (hne : va.slots ≠ []) (hn : n ≤ va.maxFrames)
    (hch : ch < min numOuts va.numOutChannels) (hf : f < n) :
    voice_alloc_perform va prev numOuts n ch f
      = (va.slots.map (fun s => slotOut s ch f)).sum := by
  unfold voice_alloc_perform
  simp only [if_pos (And.intro hch hf)]
  obtain ⟨s0, rest, hsl⟩ : ∃ s0 rest, va.slots = s0 :: rest := by
    cases h : va.slots with
    | nil => exact absurd h hne
    | cons a b => exact ⟨a, b, rfl⟩
  rw [hsl]
  rw [show performMix (s0 :: rest) ch f
      = sumTail ch f rest (slotOut s0 ch f) from rfl, sumTail_eq]
  simp

/-- Witness for C4: a two-slot pool, slot 0 bound and emitting the constant
3, slot 1 unbound but live and emitting the constant 4; the host buffer
equals the slot-wise sum. -/
theorem perform_sums_all_live_slots_witness :
    ((⟨[⟨some ⟨[], 0, fun _ _ => 3⟩, 60, 0⟩,
        ⟨some ⟨[], 0, fun _ _ => 4⟩, -1, 1⟩], 2, 2, 8⟩ :
      VoiceAllocator).slots ≠ [] ∧ (8 : ℕ) ≤ 8 ∧ (0 : ℕ) < min 2 2 ∧
      (0 : ℕ) < 8) ∧
    voice_alloc_perform
      ⟨[⟨some ⟨[], 0, fun _ _ => 3⟩, 60, 0⟩,
        ⟨some ⟨[], 0, fun _ _ => 4⟩, -1, 1⟩], 2, 2, 8⟩
      (fun _ _ => 100) 2 8 0 0
      = ((⟨[⟨some ⟨[], 0, fun _ _ => 3⟩, 60, 0⟩,
          ⟨some ⟨[], 0, fun _ _ => 4⟩, -1, 1⟩], 2, 2, 8⟩ :
        VoiceAllocator).slots.map (fun s => slotOut s 0 0)).sum :=
  ⟨⟨by simp, by norm_num, by norm_num, by norm_num⟩,
    perform_sums_all_live_slots
      ⟨[⟨some ⟨[], 0, fun _ _ => 3⟩, 60, 0⟩,
        ⟨some ⟨[], 0, fun _ _ => 4⟩, -1, 1⟩], 2, 2, 8⟩
      (fun _ _ => 100) 2 8 0 0 (by simp) (by norm_num) (by norm_num)
      (by norm_num)⟩

/-- C6.  When slot 0's engine is inert, perform zeroes the written region of
the host buffers in place of slot 0's direct write and then sums the
remaining slots, so slot 0 contributes exactly zero: the result is the sum
over slots 1.. only, independent of the buffer's previous contents. -/
theorem perform_inert_slot0_silent (va : VoiceAllocator) (prev : ℕ → ℕ → ℝ)
    (numOuts n ch f : ℕ) (hinert : (va.slots.getD 0 dSlot).engine = none)
    (hne : va.slots ≠ []) (hn : n ≤ va.maxFrames)
    (hch : ch < min numOuts va.numOutChannels) (hf : f < n) :
    voice_alloc_perform va prev numOuts n ch f
      = ((va.slots.drop 1).map (fun s => slotOut s ch f)).sum := by
  unfold voice_alloc_perform
  simp only [if_pos (And.intro hch hf)]
  obtain ⟨s0, rest, hsl⟩ : ∃ s0 rest, va.slots = s0 :: rest := by
    cases h : va.slots with
    | nil => exact absurd h hne
    | cons a b => exact ⟨a, b, rfl⟩
  rw [hsl] at hinert ⊢
  have h0 : slotOut s0 ch f = 0 := by
    have : s0.engine = none := by simpa using hinert
    simp [slotOut, this]
  rw [show performMix (s0 :: rest) ch f
      = sumTail ch f rest (slotOut s0 ch f) from rfl, h0, sumTail_eq]
  simp

/-- Witness for C6: slot 0 inert, slot 1 live and bound emitting the
constant 4; the buffer holds exactly the slot-1 contribution. -/
theorem perform_inert_slot0_silent_witness :
    (((⟨[⟨none, 60, 0⟩, ⟨some ⟨[], 0, fun _ _ => 4⟩, 64, 1⟩], 2, 1, 8⟩ :
        VoiceAllocator).slots.getD 0 dSlot).engine = none ∧
      (⟨[⟨none, 60, 0⟩, ⟨some ⟨[], 0, fun _ _ => 4⟩, 64, 1⟩], 2, 1, 8⟩ :
        VoiceAllocator).slots ≠ [] ∧ (8 : ℕ) ≤ 8 ∧ (0 : ℕ) < min 1 1 ∧
      (0 : ℕ) < 8) ∧
    voice_alloc_perform
      ⟨[⟨none, 60, 0⟩, ⟨some ⟨[], 0, fun _ _ => 4⟩, 64, 1⟩], 2, 1, 8⟩
      (fun _ _ => 100) 1 8 0 0
      = (((⟨[⟨none, 60, 0⟩, ⟨some ⟨[], 0, fun _ _ => 4⟩, 64, 1⟩], 2, 1, 8⟩ :
          VoiceAllocator).slots.drop 1).map (fun s => slotOut s 0 0)).sum :=
  ⟨⟨rfl, by simp, by norm_num, by norm_num, by norm_num⟩,
    perform_inert_slot0_silent
      ⟨[⟨none, 60, 0⟩, ⟨some ⟨[], 0, fun _ _ => 4⟩, 64, 1⟩], 2, 1, 8⟩
      (fun _ _ => 100) 1 8 0 0 rfl (by simp) (by norm_num) (by norm_num)
      (by norm_num)⟩

/-! ### Claim C5: distinct assignment from an all-free pool -/

/-- A sequence of `voice_alloc_note_on` calls (no intervening note-off),
returning the final allocator and the voice ids in call order. -/
noncomputable def noteOnSeq (cfg : MidiCfg) (va : VoiceAllocator)
    (notes : List ℤ) (vel : ℝ) : VoiceAllocator × List ℕ :=
  match notes with
  | [] => (va, [])
  | n :: ns =>
    let r := voice_alloc_note_on cfg va n vel
    let rest := noteOnSeq cfg r.1 ns vel
    (rest.1, r.2 :: rest.2)

theorem bindSlot_eq_of_get? (slots : List Slot) (v : ℕ) (n : ℤ) (a : ℕ)
    (s : Slot) (h : slots.get? v = some s) :
    bindSlot slots v n a = slots.set v { s with note := n, age := a } := by
  unfold bindSlot
  rw [h]

theorem updateEngineAt_eq_some (slots : List Slot) (v : ℕ)
    (fn : Engine → Engine) (s : Slot) (e : Engine)
    (h : slots.get? v = some s) (he : s.engine = some e) :
    updateEngineAt slots v fn = slots.set v ⟨some (fn e), s.note, s.age⟩ := by
  unfold updateEngineAt
  rw [h]
  obtain ⟨eng, nt, ag⟩ := s
  cases eng with
  | none => simp at he
  | some e' =>
    have : e' = e := by simpa using he
    subst this
    rfl

/-- One `voice_alloc_note_on` on a pool whose first `bound.length` slots are
bound and whose next slot is free: the free slot is selected, bound to the
note with the current counter as age, and everything else is untouched. -/
theorem noteOn_append_free (cfg : MidiCfg) (bound : List Slot) (f : Slot)
    (rest : List Slot) (c oc mf : ℕ) (note : ℤ) (vel : ℝ)
    (hb : ∀ s ∈ bound, 0 ≤ s.note) (hf : f.note = -1) :
    ∃ f' : Slot, f'.note = note ∧ f'.age = c ∧
      voice_alloc_note_on cfg ⟨bound ++ f :: rest, c, oc, mf⟩ note vel
        = (⟨bound ++ f' :: rest, c + 1, oc, mf⟩, bound.length) := by
  have hfree := findFreeIdx_append bound f rest hb hf
  have hget : (bound ++ f :: rest).get? bound.length = some f :=
    get?_append_len bound f rest
  have hbind : bindSlot (bound ++ f :: rest) bound.length note c
      = bound ++ ({ f with note := note, age := c } : Slot) :: rest := by
    rw [bindSlot_eq_of_get? _ _ _ _ f hget, set_append_len]
  have hget2 : (bound ++ ({ f with note := note, age := c } : Slot) :: rest).get?
      bound.length = some { f with note := note, age := c } :=
    get?_append_len bound _ rest
  unfold voice_alloc_note_on
  rw [hfree]
  simp only
  rw [hbind]
  cases he : f.engine with
  | none =>
    rw [he] at hget2
    refine ⟨⟨none, note, c⟩, rfl, rfl, ?_⟩
    rw [updateEngineAt_inert _ _ _ (by rw [get?_getD _ _ _ dSlot hget2])]
  | some e =>
    rw [he] at hget2
    refine ⟨⟨some (noteOnWrites cfg note vel e), note, c⟩, rfl, rfl, ?_⟩
    rw [updateEngineAt_eq_some _ _ _ _ e hget2 rfl]
    rw [set_append_len]

/-- The sequence lemma behind C5, generalised over an already-bound prefix:
each call binds the next free slot in index order. -/
theorem noteOnSeq_fills_free (cfg : MidiCfg) (vel : ℝ) :
    ∀ (ns : List ℤ) (bound free : List Slot) (c oc mf : ℕ),
      (∀ s ∈ bound, 0 ≤ s.note) → (∀ s ∈ free, s.note = -1) →
      ns.length = free.length → (∀ n ∈ ns, 0 ≤ n) →
      (noteOnSeq cfg ⟨bound ++ free, c, oc, mf⟩ ns vel).2
          = (List.range ns.length).map (· + bound.length) ∧
      (noteOnSeq cfg ⟨bound ++ free, c, oc, mf⟩ ns vel).1.slots.length
          = bound.length + free.length ∧
      (∀ j, j < bound.length →
        ((noteOnSeq cfg ⟨bound ++ free, c, oc, mf⟩ ns vel).1.slots.getD j
            dSlot).note = (bound.getD j dSlot).note) ∧
      (∀ j, j < ns.length →
        ((noteOnSeq cfg ⟨bound ++ free, c, oc, mf⟩ ns vel).1.slots.getD
            (bound.length + j) dSlot).note = ns.getD j 0) := by
  intro ns
  induction ns with
  | nil =>
    intro bound free c oc mf hb hfr hlen hpos
    refine ⟨by simp [noteOnSeq], by simp [noteOnSeq], ?_, ?_⟩
    · intro j hj
      simp only [noteOnSeq]
      rw [getD_append_left _ _ _ _ hj]
    · intro j hj
      simp at hj
  | cons n ns' ih =>
    intro bound free c oc mf hb hfr hlen hpos
    cases free with
    | nil => simp at hlen
    | cons fh ft =>
      obtain ⟨f', hfn, hfa, heq⟩ := noteOn_append_free cfg bound fh ft c oc mf
        n vel hb (hfr fh (List.mem_cons_self fh ft))
      have hb' : ∀ s ∈ bound ++ [f'], 0 ≤ s.note := by
        intro s hs
        rcases List.mem_append.mp hs with hs | hs
        · exact hb s hs
        · have : s = f' := by simpa using hs
          subst this
          rw [hfn]
          exact hpos n (List.mem_cons_self n ns')
      have hsplit : bound ++ f' :: ft = (bound ++ [f']) ++ ft := by
        simp
      have ihr := ih (bound ++ [f']) ft (c + 1) oc mf hb'
        (fun s hs => hfr s (List.mem_cons_of_mem fh hs))
        (by simpa using hlen)
        (fun m hm => hpos m (List.mem_cons_of_mem n hm))
      rw [hsplit] at heq
      obtain ⟨ih1, ih2, ih3, ih4⟩ := ihr
      have hrw : noteOnSeq cfg ⟨bound ++ fh :: ft, c, oc, mf⟩ (n :: ns') vel
          = ((noteOnSeq cfg ⟨(bound ++ [f']) ++ ft, c + 1, oc, mf⟩ ns' vel).1,
             bound.length ::
               (noteOnSeq cfg ⟨(bound ++ [f']) ++ ft, c + 1, oc, mf⟩ ns' vel).2) := by
        simp only [noteOnSeq, heq]
      refine ⟨?_, ?_, ?_, ?_⟩
      · rw [hrw]
        dsimp only
        rw [ih1]
        have hlen1 : (bound ++ [f']).length = bound.length + 1 := by simp
        rw [hlen1]
        simp only [List.length_cons, List.range_succ_eq_map, List.map_cons,
          List.map_map, Nat.zero_add]
        have hfun : ((fun x => x + bound.length) ∘ Nat.succ)
            = (fun x => x + (bound.length + 1)) := by
          funext x
          simp only [Function.comp_apply]
          omega
        rw [hfun]
      · rw [hrw]
        dsimp only
        rw [ih2]
        simp only [List.length_append, List.length_cons, List.length_nil]
        omega
      · intro j hj
        rw [hrw]
        dsimp only
        rw [ih3 j (by simp only [List.length_append, List.length_singleton]; omega)]
        rw [getD_append_left _ _ _ _ hj]
      · intro j hj
        rw [hrw]
        dsimp only
        cases j with
        | zero =>
          have hlt : bound.length < (bound ++ [f']).length := by simp
          simp only [Nat.add_zero]
          rw [ih3 bound.length hlt]
          have hgf : (bound ++ [f']).getD bound.length dSlot = f' :=
            get?_getD _ _ _ _ (get?_append_len bound f' [])
          rw [hgf, hfn]
          rfl
        | succ j' =>
          have hj4 := ih4 j' (by simpa using Nat.lt_of_succ_lt_succ hj)
          have hidx : (bound ++ [f']).length + j'
              = bound.length + (j' + 1) := by
            simp only [List.length_append, List.length_singleton]
            omega
          rw [hidx] at hj4
          rw [hj4]
          rfl

/-- C5.  Starting from an all-free pool of size N, issuing N noteOn calls
with (distinct, nonnegative) note numbers and no intervening noteOff yields
the voice ids 0, 1, …, N−1 in order — N distinct ids, the first free slot in
ascending index order at each call — and leaves slot j bound to the j-th
input note. -/
theorem noteOnSeq_distinct_assignment (cfg : MidiCfg) (va : VoiceAllocator)
    (ns : List ℤ) (vel : ℝ)
    (hfree : ∀ s ∈ va.slots, s.note = -1)
    (hlen : ns.length = va.slots.length)
    (hpos : ∀ n ∈ ns, 0 ≤ n)
    (hnodup : ns.Nodup) :
    (noteOnSeq cfg va ns vel).2 = List.range va.slots.length ∧
    (noteOnSeq cfg va ns vel).2.Nodup ∧
    ∀ j, j < va.slots.length →
      ((noteOnSeq cfg va ns vel).1.slots.getD j dSlot).note = ns.getD j 0 := by
  have h := noteOnSeq_fills_free cfg vel ns [] va.slots va.counter
    va.numOutChannels va.maxFrames (by simp) hfree (by simpa using hlen) hpos
  obtain ⟨h1, h2, h3, h4⟩ := h
  have hva : (⟨[] ++ va.slots, va.counter, va.numOutChannels, va.maxFrames⟩ :
      VoiceAllocator) = va := by
    simp
  rw [hva] at h1 h4
  refine ⟨?_, ?_, ?_⟩
  · rw [h1, hlen]
    simp
  · rw [h1]
    simp [List.nodup_range]
  · intro j hj
    have := h4 j (by omega)
    simpa using this

/-- Witness for C5: a two-slot all-free pool, notes 60 and 64; the voice ids
are [0, 1] and the slots end bound to 60 and 64. -/
theorem noteOnSeq_distinct_assignment_witness :
    ((∀ s ∈ (⟨[⟨none, -1, 0⟩, ⟨none, -1, 0⟩], 0, 1, 8⟩ :
        VoiceAllocator).slots, s.note = -1) ∧
      ([60, 64] : List ℤ).length
        = (⟨[⟨none, -1, 0⟩, ⟨none, -1, 0⟩], 0, 1, 8⟩ :
          VoiceAllocator).slots.length ∧
      (∀ n ∈ ([60, 64] : List ℤ), 0 ≤ n) ∧ ([60, 64] : List ℤ).Nodup) ∧
    (noteOnSeq ⟨none, none, none, false⟩
        ⟨[⟨none, -1, 0⟩, ⟨none, -1, 0⟩], 0, 1, 8⟩ [60, 64] 1).2
      = List.range (⟨[⟨none, -1, 0⟩, ⟨none, -1, 0⟩], 0, 1, 8⟩ :
          VoiceAllocator).slots.length :=
  ⟨⟨by
      intro s hs
      simp only [List.mem_cons, List.not_mem_nil, or_false] at hs
      rcases hs with h | h <;> simp [h], rfl,
    by decide, by decide⟩,
    (noteOnSeq_distinct_assignment ⟨none, none, none, false⟩
      ⟨[⟨none, -1, 0⟩, ⟨none, -1, 0⟩], 0, 1, 8⟩ [60, 64] 1
      (by
        intro s hs
        simp only [List.mem_cons, List.not_mem_nil, or_false] at hs
        rcases hs with h | h <;> simp [h])
      rfl (by decide) (by decide)).1⟩

/-! ### Claim C7: note-off semantics -/

theorem releaseSlot_gate (cfg : MidiCfg) (s : Slot) (g : ℕ) (e : Engine)
    (hg : cfg.gateIdx = some g) (he : s.engine = some e) :
    releaseSlot cfg s = { s with engine := some (e.setParam g 0), note := -1 } := by
  unfold releaseSlot
  rw [hg, he]

theorem noteOffGo_no_match (cfg : MidiCfg) (k : ℤ) (l : List Slot)
    (h : ∀ s ∈ l, s.note ≠ k) : noteOffGo cfg k l = l := by
  induction l with
  | nil => rfl
  | cons s rest ih =>
    have hs : ¬ s.note = k := h s (List.mem_cons_self s rest)
    simp [noteOffGo, hs, ih (fun t ht => h t (List.mem_cons_of_mem s ht))]

theorem noteOffGo_first_match (cfg : MidiCfg) (k : ℤ) (l : List Slot) :
    ∀ i, i < l.length → (l.getD i dSlot).note = k →
      (∀ j, j < i → (l.getD j dSlot).note ≠ k) →
      noteOffGo cfg k l = l.set i (releaseSlot cfg (l.getD i dSlot)) := by
  induction l with
  | nil =>
    intro i hi
    simp at hi
  | cons s rest ih =>
    intro i hi hk hfirst
    cases i with
    | zero =>
      have hs : s.note = k := by simpa using hk
      simp [noteOffGo, hs, List.set]
    | succ i =>
      have hs : ¬ s.note = k := by simpa using hfirst 0 (Nat.succ_pos i)
      have := ih i (by simpa using hi) (by simpa using hk)
        (fun j hj => by simpa using hfirst (j + 1) (by omega))
      simp [noteOffGo, hs, List.set, this]

/-- C7.  `voice_alloc_note_off` with note k: if no slot is bound to k,
nothing changes (a silent no-op); otherwise exactly the first matching slot
in index order is released — gate-off (0) written to the designated gate
index when one exists and the slot is live, the slot unbound — and every
other slot is left unchanged. -/
theorem noteOff_releases_first_match (cfg : MidiCfg) (va : VoiceAllocator)
    (k : ℤ) :
    ((∀ s ∈ va.slots, s.note ≠ k) → voice_alloc_note_off cfg va k = va) ∧
    (∀ i, i < va.slots.length → (va.slots.getD i dSlot).note = k →
      (∀ j, j < i → (va.slots.getD j dSlot).note ≠ k) →
      (voice_alloc_note_off cfg va k).slots
        = va.slots.set i (releaseSlot cfg (va.slots.getD i dSlot))) ∧
    (∀ i g e, i < va.slots.length → (va.slots.getD i dSlot).note = k →
      (∀ j, j < i → (va.slots.getD j dSlot).note ≠ k) →
      cfg.gateIdx = some g → (va.slots.getD i dSlot).engine = some e →
      g < e.params.length →
      ((voice_alloc_note_off cfg va k).slots.getD i dSlot).engine.map
          (fun e2 => e2.getParam g) = some 0 ∧
      ((voice_alloc_note_off cfg va k).slots.getD i dSlot).note = -1) := by
  refine ⟨?_, ?_, ?_⟩
  · intro h
    unfold voice_alloc_note_off
    rw [noteOffGo_no_match cfg k va.slots h]
  · intro i hi hk hfirst
    unfold voice_alloc_note_off
    exact noteOffGo_first_match cfg k va.slots i hi hk hfirst
  · intro i g e hi hk hfirst hg he hglen
    have hset : (voice_alloc_note_off cfg va k).slots
        = va.slots.set i (releaseSlot cfg (va.slots.getD i dSlot)) := by
      unfold voice_alloc_note_off
      exact noteOffGo_first_match cfg k va.slots i hi hk hfirst
    have hrel : releaseSlot cfg (va.slots.getD i dSlot)
        = { va.slots.getD i dSlot with
            engine := some (e.setParam g 0), note := -1 } :=
      releaseSlot_gate cfg _ g e hg he
    rw [hset, getD_set_self _ _ _ _ hi, hrel]
    constructor
    · simp only [Option.map_some']
      rw [getParam_setParam_self e g 0 hglen]
    · rfl

/-- Witness for C7: a two-slot pool bound to 5 and 7, gate index 0; noteOff 7
releases slot 1 (the first and only match), writing gate 0 and unbinding. -/
theorem noteOff_releases_first_match_witness :
    ((1 : ℕ) < (⟨[⟨none, 5, 0⟩, ⟨some ⟨[1], 0, fun _ _ => 0⟩, 7, 1⟩], 2, 1, 8⟩ :
        VoiceAllocator).slots.length ∧
      ((⟨[⟨none, 5, 0⟩, ⟨some ⟨[1], 0, fun _ _ => 0⟩, 7, 1⟩], 2, 1, 8⟩ :
        VoiceAllocator).slots.getD 1 dSlot).note = 7) ∧
    ((voice_alloc_note_off ⟨some 0, none, none, false⟩
        ⟨[⟨none, 5, 0⟩, ⟨some ⟨[1], 0, fun _ _ => 0⟩, 7, 1⟩], 2, 1, 8⟩
        7).slots.getD 1 dSlot).engine.map (fun e2 => e2.getParam 0)
      = some 0 ∧
    ((voice_alloc_note_off ⟨some 0, none, none, false⟩
        ⟨[⟨none, 5, 0⟩, ⟨some ⟨[1], 0, fun _ _ => 0⟩, 7, 1⟩], 2, 1, 8⟩
        7).slots.getD 1 dSlot).note = -1 :=
  ⟨⟨by simp, rfl⟩,
    (noteOff_releases_first_match ⟨some 0, none, none, false⟩
      ⟨[⟨none, 5, 0⟩, ⟨some ⟨[1], 0, fun _ _ => 0⟩, 7, 1⟩], 2, 1, 8⟩ 7).2.2
      1 0 ⟨[1], 0, fun _ _ => 0⟩ (by simp) rfl
      (by
        intro j hj
        have hj0 : j = 0 := by omega
        subst hj0
        decide)
      rfl rfl (by norm_num)⟩

/-! ### Claim C8: reset -/

theorem getD_map_slot (φ : Slot → Slot) (l : List Slot) (j : ℕ)
    (hj : j < l.length) : (l.map φ).getD j dSlot = φ (l.getD j dSlot) := by
  induction l generalizing j with
  | nil => simp at hj
  | cons x xs ih =>
    cases j with
    | zero => rfl
    | succ j => exact ih j (by simpa using hj)

/-- C8.  After `voice_alloc_reset`: every slot is unbound, the allocation
counter is 0, every live engine received exactly one reset call with its
parameter store and output untouched (same handle — nothing destroyed,
recreated or replaced), inert slots stay inert, and a subsequent noteOn
succeeds, selecting slot 0 of the same engine array. -/
theorem reset_clears_bindings_keeps_engines (cfg : MidiCfg)
    (va : VoiceAllocator) (note : ℤ) (vel : ℝ) :
    (∀ j, j < va.slots.length →
      ((voice_alloc_reset va).slots.getD j dSlot).note = -1) ∧
    (voice_alloc_reset va).counter = 0 ∧
    (∀ j e, (va.slots.getD j dSlot).engine = some e →
      ((voice_alloc_reset va).slots.getD j dSlot).engine
        = some ⟨e.params, e.resets + 1, e.out⟩) ∧
    (∀ j, (va.slots.getD j dSlot).engine = none →
      ((voice_alloc_reset va).slots.getD j dSlot).engine = none) ∧
    (va.slots ≠ [] →
      (voice_alloc_note_on cfg (voice_alloc_reset va) note vel).2 = 0) := by
  refine ⟨?_, rfl, ?_, ?_, ?_⟩
  · intro j hj
    unfold voice_alloc_reset
    rw [getD_map_slot _ _ _ hj]
  · intro j e he
    by_cases hj : j < va.slots.length
    · unfold voice_alloc_reset
      rw [getD_map_slot _ _ _ hj]
      simp only [he, Option.map_some']
      rfl
    · rw [List.getD_eq_default _ _ (by omega)] at he
      simp [dSlot] at he
  · intro j he
    by_cases hj : j < va.slots.length
    · unfold voice_alloc_reset
      rw [getD_map_slot _ _ _ hj]
      dsimp only
      rw [he]
      rfl
    · unfold voice_alloc_reset
      rw [List.getD_eq_default _ _ (by simp; omega)]
      rfl
  · intro hne
    obtain ⟨s0, rest, hsl⟩ : ∃ s0 rest, va.slots = s0 :: rest := by
      cases h : va.slots with
      | nil => exact absurd h hne
      | cons a b => exact ⟨a, b, rfl⟩
    have hfree : findFreeIdx (voice_alloc_reset va).slots = some 0 := by
      unfold voice_alloc_reset
      rw [hsl]
      simp [findFreeIdx]
    exact (noteOn_free_shape cfg (voice_alloc_reset va) note vel 0 hfree).1

/-- Witness for C8: after resetting a one-slot pool bound to 60 with a live
engine, a fresh noteOn selects slot 0. -/
theorem reset_clears_bindings_keeps_engines_witness :
    ((⟨[⟨some ⟨[0], 2, fun _ _ => 0⟩, 60, 3⟩], 4, 1, 8⟩ :
      VoiceAllocator).slots ≠ []) ∧
    (voice_alloc_note_on ⟨none, none, none, false⟩
      (voice_alloc_reset ⟨[⟨some ⟨[0], 2, fun _ _ => 0⟩, 60, 3⟩], 4, 1, 8⟩)
      72 1).2 = 0 :=
  ⟨by simp,
    (reset_clears_bindings_keeps_engines ⟨none, none, none, false⟩
      ⟨[⟨some ⟨[0], 2, fun _ _ => 0⟩, 60, 3⟩], 4, 1, 8⟩ 72 1).2.2.2.2
      (by simp)⟩

/-! ### Claims C9 and C10: global parameter broadcast and read-back -/

/-- C9.  `voice_alloc_set_global_param` writes the value to every live
slot's engine regardless of binding state, and a following
`voice_alloc_get_param` (which reads slot 0's engine only) returns it. -/
theorem setGlobalParam_broadcast_roundtrip (va : VoiceAllocator) (idx : ℕ)
    (v : ℝ) (e0 : Engine)
    (h0 : (va.slots.getD 0 dSlot).engine = some e0)
    (hne : va.slots ≠ [])
    (hidx : idx < e0.params.length) :
    voice_alloc_get_param (voice_alloc_set_global_param va idx v) idx = v ∧
    (∀ s ∈ (voice_alloc_set_global_param va idx v).slots, ∀ e,
      s.engine = some e → idx < e.params.length → e.getParam idx = v) := by
  constructor
  · obtain ⟨s0, rest, hsl⟩ : ∃ s0 rest, va.slots = s0 :: rest := by
      cases h : va.slots with
      | nil => exact absurd h hne
      | cons a b => exact ⟨a, b, rfl⟩
    rw [hsl] at h0
    have h0' : s0.engine = some e0 := by simpa using h0
    unfold voice_alloc_set_global_param voice_alloc_get_param
    rw [hsl]
    simp only [List.map_cons, h0', Option.map_some']
    obtain ⟨eng, nt, ag⟩ := s0
    have he : eng = some e0 := by simpa using h0'
    subst he
    exact getParam_setParam_self e0 idx v hidx
  · intro s hs e he hlen
    unfold voice_alloc_set_global_param at hs
    simp only [List.mem_map] at hs
    obtain ⟨s', _, rfl⟩ := hs
    simp only at he
    cases hs' : s'.engine with
    | none => rw [hs'] at he; simp at he
    | some e'' =>
      rw [hs'] at he
      simp only [Option.map_some', Option.some.injEq] at he
      subst he
      rw [length_setParam] at hlen
      exact getParam_setParam_self e'' idx v hlen

/-- Witness for C9: a one-slot pool with a two-parameter live engine;
setting index 1 to 5 and reading it back returns 5. -/
theorem setGlobalParam_broadcast_roundtrip_witness :
    (((⟨[⟨some ⟨[0, 0], 0, fun _ _ => 0⟩, -1, 0⟩], 0, 1, 8⟩ :
        VoiceAllocator).slots.getD 0 dSlot).engine
      = some ⟨[0, 0], 0, fun _ _ => 0⟩ ∧
      (⟨[⟨some ⟨[0, 0], 0, fun _ _ => 0⟩, -1, 0⟩], 0, 1, 8⟩ :
        VoiceAllocator).slots ≠ [] ∧
      (1 : ℕ) < (⟨[0, 0], 0, fun _ _ => 0⟩ : Engine).params.length) ∧
    voice_alloc_get_param
      (voice_alloc_set_global_param
        ⟨[⟨some ⟨[0, 0], 0, fun _ _ => 0⟩, -1, 0⟩], 0, 1, 8⟩ 1 5) 1 = 5 :=
  ⟨⟨rfl, by simp, by norm_num⟩,
    (setGlobalParam_broadcast_roundtrip
      ⟨[⟨some ⟨[0, 0], 0, fun _ _ => 0⟩, -1, 0⟩], 0, 1, 8⟩ 1 5
      ⟨[0, 0], 0, fun _ _ => 0⟩ rfl (by simp) (by norm_num)).1⟩

/-- C10.  When slot 0 is inert, `voice_alloc_get_param` returns 0.0 for
every index, whatever any other slot's live engine holds: the read never
falls back to another slot. -/
theorem getGlobalParam_inert_slot0_returns_zero (va : VoiceAllocator)
    (idx : ℕ) (h : (va.slots.getD 0 dSlot).engine = none) :
    voice_alloc_get_param va idx = 0 := by
  unfold voice_alloc_get_param
  cases hs : va.slots with
  | nil => rfl
  | cons s rest =>
    rw [hs] at h
    have h' : s.engine = none := by simpa using h
    obtain ⟨eng, nt, ag⟩ := s
    have he : eng = none := by simpa using h'
    subst he
    rfl

/-- Witness for C10: slot 0 inert, slot 1 live holding 7 at index 0; the
read still returns 0. -/
theorem getGlobalParam_inert_slot0_returns_zero_witness :
    ((⟨[⟨none, 60, 0⟩, ⟨some ⟨[7], 0, fun _ _ => 0⟩, -1, 0⟩], 1, 1, 8⟩ :
      VoiceAllocator).slots.getD 0 dSlot).engine = none ∧
    voice_alloc_get_param
      ⟨[⟨none, 60, 0⟩, ⟨some ⟨[7], 0, fun _ _ => 0⟩, -1, 0⟩], 1, 1, 8⟩ 0 = 0 :=
  ⟨rfl,
    getGlobalParam_inert_slot0_returns_zero
      ⟨[⟨none, 60, 0⟩, ⟨some ⟨[7], 0, fun _ _ => 0⟩, -1, 0⟩], 1, 1, 8⟩ 0 rfl⟩

end GenDsp
